import Mathlib

/-!
Verification of the per-project record store of `csv_manager.py` (the
fieldlog repository).  Python dictionaries with string keys and string
values are embedded as association lists, rows of the per-project table
as such dictionaries, and the on-disk CSV wire format as an explicit
encoder and parser over `List Char`.  All values handled by the store in
this code base are strings (the UI passes stripped strings), so the
embedding specialises dict values to `String`; `str(...)` coercion on a
string is then the identity.
-/

namespace FieldLog

/-- A Python dict with string keys and string values, as the store uses them
(rows, `meta`, `run_data`).  A real Python dict has unique keys; theorems
that feed arbitrary lists state that as a `Nodup` hypothesis where the
distinction matters. -/
abbrev Dict := List (String × String)

/-- `d.get(k)`: the value at key `k` (first occurrence). -/
def dget? : Dict → String → Option String
  | [], _ => none
  | p :: t, k => if p.1 = k then some p.2 else dget? t k

/-- `d.get(k, v0)`. -/
def dgetD (d : Dict) (k : String) (v0 : String) : String :=
  (dget? d k).getD v0

/-- `k in d`. -/
def dcontains : Dict → String → Bool
  | [], _ => false
  | p :: t, k => p.1 = k || dcontains t k

/-- `d[k] = v`: replace the value at an existing key in place, else append
the pair (Python dicts keep insertion order). -/
def dset : Dict → String → String → Dict
  | [], k, v => [(k, v)]
  | p :: t, k, v => if p.1 = k then (k, v) :: t else p :: dset t k v

/-- `d.update(e)`: fold `d[k] = v` over the pairs of `e` in order. -/
def dupd (d e : Dict) : Dict :=
  e.foldl (fun acc p => dset acc p.1 p.2) d

/-- The value the last occurrence of key `k` in `e` carries, if any
(for a genuine dict, whose keys are `Nodup`, this is `dget?`). -/
def last_val : Dict → String → Option String
  | [], _ => none
  | p :: t, k => (last_val t k).or (if p.1 = k then some p.2 else none)

/-- Python truthiness of `d.get(k)`: `None` and the empty string are falsy. -/
def truthy? (o : Option String) : Bool :=
  match o with
  | none => false
  | some s => !(s == "")

/-- The fixed header list `PROJECT_HEADERS` of `csv_manager.py`. -/
def PROJECT_HEADERS : List String :=
  ["project_code", "client", "address", "project_description",
   "location_lat", "location_lon", "arcgis_link", "task_number",
   "attempt_number", "directory_name", "data_type", "asset_id",
   "asset_designation", "asset_type", "deployment_platform",
   "entry_point", "exit_point", "pipe_length", "date_start",
   "date_stop", "run_quality", "observation_summary", "other_comments"]

/-- The row a load from disk yields for a stored row: exactly the header
keys, each with `row.get(h, "")` (`_load_project` builds
`{h: row.get(h, "") for h in PROJECT_HEADERS}`, and `_write_project`
writes `{h: row.get(h, "") for h in PROJECT_HEADERS}`). -/
def store_row (r : Dict) : Dict :=
  PROJECT_HEADERS.map (fun h => (h, dgetD r h ""))

/-- The `(task_number, attempt_number)` pair a row carries. -/
def row_key (r : Dict) : String × String :=
  (dgetD r "task_number" "", dgetD r "attempt_number" "")

/- ── Basic dict lemmas ───────────────────────────────────────────── -/

theorem dget?_map_keys (l : List String) (f : String → String) (k : String) :
    dget? (l.map (fun h => (h, f h))) k
      = if k ∈ l then some (f k) else none := by
  induction l with
  | nil => simp [dget?]
  | cons h t ih =>
    by_cases hk : h = k
    · subst hk
      simp [dget?]
    · simp [dget?, hk, ih, Ne.symm hk]

theorem dcontains_eq_isSome (d : Dict) (k : String) :
    dcontains d k = (dget? d k).isSome := by
  induction d with
  | nil => simp [dcontains, dget?]
  | cons p t ih =>
    by_cases hk : p.1 = k
    · simp [dcontains, dget?, hk]
    · simp [dcontains, dget?, hk, ih]

theorem dget?_set_self (d : Dict) (k v : String) :
    dget? (dset d k v) k = some v := by
  induction d with
  | nil => simp [dset, dget?]
  | cons p t ih =>
    by_cases hk : p.1 = k
    · simp [dset, dget?, hk]
    · simp [dset, dget?, hk, ih]

theorem dget?_set_ne (d : Dict) (k v k' : String) (hk : k' ≠ k) :
    dget? (dset d k v) k' = dget? d k' := by
  induction d with
  | nil => simp [dset, dget?, Ne.symm hk]
  | cons p t ih =>
    by_cases h1 : p.1 = k
    · subst h1
      simp [dset, dget?, hk, Ne.symm hk]
    · by_cases h2 : p.1 = k'
      · simp [dset, dget?, h1, h2, hk]
      · simp [dset, dget?, h1, h2, ih]

theorem dget?_upd (d e : Dict) (k : String) :
    dget? (dupd d e) k = (last_val e k).or (dget? d k) := by
  induction e generalizing d with
  | nil => simp [dupd, last_val]
  | cons p t ih =>
    have h1 : dupd d (p :: t) = dupd (dset d p.1 p.2) t := rfl
    rw [h1, ih]
    show _ = ((last_val t k).or _).or _
    cases hlv : last_val t k with
    | some v => simp [Option.or]
    | none =>
      simp only [Option.or]
      by_cases hk : p.1 = k
      · subst hk
        simp [dget?_set_self]
      · rw [dget?_set_ne d p.1 p.2 k (Ne.symm hk)]
        simp [hk]

theorem last_val_eq_none (e : Dict) (k : String)
    (h : k ∉ e.map Prod.fst) : last_val e k = none := by
  induction e with
  | nil => rfl
  | cons p t ih =>
    simp only [List.map_cons, List.mem_cons] at h
    push_neg at h
    simp [last_val, ih h.2, Ne.symm h.1]

theorem last_val_of_nodup (e : Dict) (k : String)
    (h : (e.map Prod.fst).Nodup) : last_val e k = dget? e k := by
  induction e with
  | nil => rfl
  | cons p t ih =>
    simp only [List.map_cons, List.nodup_cons] at h
    by_cases hk : p.1 = k
    · subst hk
      rw [last_val, last_val_eq_none t p.1 h.1]
      simp [dget?]
    · simp [last_val, dget?, hk, ih h.2]

theorem dget?_store_row (r : Dict) (k : String) :
    dget? (store_row r) k
      = if k ∈ PROJECT_HEADERS then some (dgetD r k "") else none :=
  dget?_map_keys PROJECT_HEADERS (fun h => dgetD r h "") k

theorem dgetD_store_row (r : Dict) (k : String) (hk : k ∈ PROJECT_HEADERS) :
    dgetD (store_row r) k "" = dgetD r k "" := by
  simp [dgetD, dget?_store_row, hk]

theorem row_key_store_row (r : Dict) : row_key (store_row r) = row_key r := by
  unfold row_key
  rw [dgetD_store_row r "task_number" (by simp [PROJECT_HEADERS]),
      dgetD_store_row r "attempt_number" (by simp [PROJECT_HEADERS])]

/- ── CSV wire format ─────────────────────────────────────────────── -/

/-- Whether `csv.writer` (QUOTE_MINIMAL) must quote a field: it contains the
delimiter, the quote char, or a line-terminator character. -/
def needs_quote (cs : List Char) : Bool :=
  cs.any (fun c => c = ',' || c = '"' || c = '\r' || c = '\n')

/-- Double every quote char (CSV escaping inside a quoted field). -/
def esc_quotes : List Char → List Char
  | [] => []
  | c :: cs => if c = '"' then '"' :: '"' :: esc_quotes cs else c :: esc_quotes cs

/-- Encode one field per `csv.writer`: quote and escape when needed. -/
def enc_field (cs : List Char) : List Char :=
  if needs_quote cs then '"' :: (esc_quotes cs ++ ['"']) else cs

/-- Comma-join the encoded fields of one record. -/
def join_fields : List (List Char) → List Char
  | [] => []
  | [f] => f
  | f :: fs => f ++ ',' :: join_fields fs

/-- One line as `csv.writer` emits it (default lineterminator `\r\n`). -/
def line_of (fields : List (List Char)) : List Char :=
  join_fields (fields.map enc_field) ++ ['\r', '\n']

/-- The field values `_write_project`/`DictWriter` writes for a row:
`row.get(h, "")` for each header, in header order. -/
def row_fields (r : Dict) : List (List Char) :=
  PROJECT_HEADERS.map (fun h => (dgetD r h "").data)

/-- The chunks `_write_project` emits in order: the header line
(`writeheader`), then one line per row (`writerow`).  The file is opened
with mode "w", which truncates; the chunks are written sequentially. -/
def write_chunks (rows : List Dict) : List String :=
  String.mk (line_of (PROJECT_HEADERS.map String.data))
    :: rows.map (fun r => String.mk (line_of (row_fields r)))

/-- Concatenation of a list of strings in order. -/
def str_concat (l : List String) : String :=
  l.foldr (fun a b => a ++ b) ""

/-- The full table file `_write_project project_code rows` leaves on disk. -/
def write_project_string (rows : List Dict) : String :=
  str_concat (write_chunks rows)

/-- The file contents after `_write_project` fails having written only the
first `k` chunks: mode "w" truncated the file first, so exactly those
chunks remain. -/
def file_after_partial_write (rows : List Dict) (k : Nat) : String :=
  str_concat ((write_chunks rows).take k)

/-- Parser state of the CSV reader (`csv.reader` defaults). -/
inductive CsvSt
  | recStart | fieldStart | unquoted | quoted | quoteEnd | afterCR
deriving DecidableEq

/-- The record parser of `csv.reader`: one character per step.  `cur` is the
field being read, `cur_rec` the fields of the record being read, `acc` the
finished records.  Doubled quotes inside a quoted field read back as one
quote; `\r`, `\n` and `\r\n` all terminate a record; blank lines yield no
record (`DictReader` skips empty rows). -/
def csv_parse : List Char → CsvSt → List Char → List String → List (List String) → List (List String)
  | [], .recStart, _, _, acc => acc
  | [], .afterCR, _, _, acc => acc
  | [], .fieldStart, _, cur_rec, acc => acc ++ [cur_rec ++ [""]]
  | [], .unquoted, cur, cur_rec, acc => acc ++ [cur_rec ++ [String.mk cur]]
  | [], .quoted, cur, cur_rec, acc => acc ++ [cur_rec ++ [String.mk cur]]
  | [], .quoteEnd, cur, cur_rec, acc => acc ++ [cur_rec ++ [String.mk cur]]
  | c :: cs, .recStart, _, _, acc =>
    if c = '"' then csv_parse cs .quoted [] [] acc
    else if c = ',' then csv_parse cs .fieldStart [] [""] acc
    else if c = '\r' then csv_parse cs .afterCR [] [] acc
    else if c = '\n' then csv_parse cs .recStart [] [] acc
    else csv_parse cs .unquoted [c] [] acc
  | c :: cs, .afterCR, _, _, acc =>
    if c = '\n' then csv_parse cs .recStart [] [] acc
    else if c = '"' then csv_parse cs .quoted [] [] acc
    else if c = ',' then csv_parse cs .fieldStart [] [""] acc
    else if c = '\r' then csv_parse cs .afterCR [] [] acc
    else csv_parse cs .unquoted [c] [] acc
  | c :: cs, .fieldStart, _, cur_rec, acc =>
    if c = '"' then csv_parse cs .quoted [] cur_rec acc
    else if c = ',' then csv_parse cs .fieldStart [] (cur_rec ++ [""]) acc
    else if c = '\r' then csv_parse cs .afterCR [] [] (acc ++ [cur_rec ++ [""]])
    else if c = '\n' then csv_parse cs .recStart [] [] (acc ++ [cur_rec ++ [""]])
    else csv_parse cs .unquoted [c] cur_rec acc
  | c :: cs, .unquoted, cur, cur_rec, acc =>
    if c = ',' then csv_parse cs .fieldStart [] (cur_rec ++ [String.mk cur]) acc
    else if c = '\r' then csv_parse cs .afterCR [] [] (acc ++ [cur_rec ++ [String.mk cur]])
    else if c = '\n' then csv_parse cs .recStart [] [] (acc ++ [cur_rec ++ [String.mk cur]])
    else csv_parse cs .unquoted (cur ++ [c]) cur_rec acc
  | c :: cs, .quoted, cur, cur_rec, acc =>
    if c = '"' then csv_parse cs .quoteEnd cur cur_rec acc
    else csv_parse cs .quoted (cur ++ [c]) cur_rec acc
  | c :: cs, .quoteEnd, cur, cur_rec, acc =>
    if c = '"' then csv_parse cs .quoted (cur ++ ['"']) cur_rec acc
    else if c = ',' then csv_parse cs .fieldStart [] (cur_rec ++ [String.mk cur]) acc
    else if c = '\r' then csv_parse cs .afterCR [] [] (acc ++ [cur_rec ++ [String.mk cur]])
    else if c = '\n' then csv_parse cs .recStart [] [] (acc ++ [cur_rec ++ [String.mk cur]])
    else csv_parse cs .unquoted (cur ++ [c]) cur_rec acc

/-- All records of a CSV byte string. -/
def csv_records (s : String) : List (List String) :=
  csv_parse s.data .recStart [] [] []

/-- `dict(zip(fieldnames, fields))`. -/
def zip_dict : List String → List String → Dict
  | h :: hs, v :: vs => (h, v) :: zip_dict hs vs
  | _, _ => []

/-- `_load_project` on a file with the given contents: `csv.DictReader`
takes the first record as the field names and skips blank rows, and the
store projects each row to `{h: row.get(h, "") for h in PROJECT_HEADERS}`.
(A row shorter than the header gets `None` for the missing names in
Python; such rows never arise from `_write_project` output, and the
embedding reads the missing names as `""`.) -/
def load_from_records : List (List String) → List Dict
  | [] => []
  | header :: rest =>
    (rest.filter (fun r => !r.isEmpty)).map (fun r =>
      PROJECT_HEADERS.map (fun h => (h, dgetD (zip_dict header r) h "")))

def load_rows_from_string (s : String) : List Dict :=
  load_from_records (csv_records s)

/-- `get_project_csv_bytes`: the raw file when it exists, else a
headers-only CSV built in memory. -/
def get_project_csv_bytes (file : Option String) : String :=
  match file with
  | some s => s
  | none => write_project_string []


/- ── Decimal strings and int() parsing ───────────────────────────── -/

/-- Decimal digits of `n` (fuel-recursive so it reduces in the kernel;
fuel `n + 1` always suffices).  Models Python `str` on a nonnegative int. -/
def nat_to_chars : Nat → Nat → List Char
  | 0, _ => []
  | fuel + 1, n =>
    if n < 10 then [Char.ofNat (48 + n)]
    else nat_to_chars fuel (n / 10) ++ [Char.ofNat (48 + n % 10)]

/-- Python `str` of a natural number. -/
def nat_str (n : Nat) : String :=
  String.mk (nat_to_chars (n + 1) n)

/-- Python `str` of an int: canonical decimal, `-` sign for negatives. -/
def py_str_of_int : Int → String
  | Int.ofNat n => nat_str n
  | Int.negSucc m => String.mk ('-' :: nat_to_chars (m + 2) (m + 1))

/-- Value of a nonempty all-digit char list. -/
def digits_val (cs : List Char) : Option Nat :=
  if !cs.isEmpty && cs.all Char.isDigit then
    some (cs.foldl (fun n c => n * 10 + (c.toNat - 48)) 0)
  else none

/-- Python `int(s)` on the ASCII strings this store produces: surrounding
whitespace stripped, an optional sign, then decimal digits; `none` models
the `ValueError` that `next_run_number` catches.  (CPython also accepts
underscore separators and non-ASCII digits; none occur here.) -/
def py_int (s : String) : Option Int :=
  let cs := ((s.data.dropWhile Char.isWhitespace).reverse.dropWhile
      Char.isWhitespace).reverse
  match cs with
  | '+' :: rest => (digits_val rest).map Int.ofNat
  | '-' :: rest => (digits_val rest).map (fun n => -(Int.ofNat n))
  | other => (digits_val other).map Int.ofNat

/- ── Store operations on the loaded table ────────────────────────── -/

/-- The match test of `append_or_update_project_run`:
`row["task_number"] == task_str and row["attempt_number"] == run_str`. -/
def row_matches (ts rs : String) (row : Dict) : Bool :=
  dgetD row "task_number" "" == ts && dgetD row "attempt_number" "" == rs

/-- One header step of the matched-row update:
`if h in run_data: row[h] = run_data[h]`, then
`if h in meta and not run_data.get(h): row[h] = meta[h]`. -/
def row_update_step (meta run_data : Dict) (row : Dict) (h : String) : Dict :=
  let row1 := if dcontains run_data h then dset row h (dgetD run_data h "") else row
  if dcontains meta h && !truthy? (dget? run_data h) then
    dset row1 h (dgetD meta h "")
  else row1

/-- The in-place update of a matched row, folded over `PROJECT_HEADERS`. -/
def update_matched_row (meta run_data row : Dict) : Dict :=
  PROJECT_HEADERS.foldl (row_update_step meta run_data) row

/-- The `for row in rows` loop: update the first matching row in place and
stop; `none` when no row matches. -/
def update_first_match (meta run_data : Dict) (ts rs : String) :
    List Dict → Option (List Dict)
  | [] => none
  | row :: rest =>
    if row_matches ts rs row then
      some (update_matched_row meta run_data row :: rest)
    else
      match update_first_match meta run_data ts rs rest with
      | some rest2 => some (row :: rest2)
      | none => none

/-- The appended row: `{h: "" for h in PROJECT_HEADERS}`, then
`new_row["project_code"] = project_code`, then `.update(meta)`, then
`.update(run_data)`. -/
def new_row (project_code : String) (meta run_data : Dict) : Dict :=
  dupd (dupd (dset (PROJECT_HEADERS.map (fun h => (h, "")))
    "project_code" project_code) meta) run_data

/-- `append_or_update_project_run` on the loaded rows: returns the rows
passed to `_write_project` and the status string. -/
def append_or_update_project_run (project_code : String)
    (meta run_data : Dict) (rows : List Dict) : List Dict × String :=
  let ts := dgetD run_data "task_number" ""
  let rs := dgetD run_data "attempt_number" ""
  match update_first_match meta run_data ts rs rows with
  | some rows2 => (rows2, "Task " ++ ts ++ " run " ++ rs ++ ": updated.")
  | none =>
    (rows ++ [new_row project_code meta run_data],
     "Task " ++ ts ++ " run " ++ rs ++ ": added.")

/-- The key `(str(run_data.get("task_number", "")),
str(run_data.get("attempt_number", "")))` of one `upsert_run` call
(`meta`, `run_data`). -/
def call_key (c : Dict × Dict) : String × String :=
  (dgetD c.2 "task_number" "", dgetD c.2 "attempt_number" "")

/-- One persisted `upsert_run` call: the mutated rows are written with
`_write_project` and the next operation reads them back with
`_load_project`. -/
def upsert_step (project_code : String) (t : List Dict) (c : Dict × Dict) :
    List Dict :=
  load_rows_from_string
    (write_project_string (append_or_update_project_run project_code c.1 c.2 t).1)

/-- A sequence of persisted `upsert_run` calls against an initially empty
table. -/
def upsert_run_seq (project_code : String) (calls : List (Dict × Dict)) :
    List Dict :=
  calls.foldl (upsert_step project_code) []

/-- `next_run_number(task, project_code)` over the loaded rows: scan the
rows of `task`, take `max(attempt) + 1` with the running max starting at
`0`; non-numeric attempts are skipped (`ValueError`/`TypeError` caught).
An empty `project_code` is falsy, so the scan is skipped entirely. -/
def next_run_number (task : Int) (project_code : String)
    (rows : List Dict) : Int :=
  let task_str := py_str_of_int task
  let max_run : Int :=
    if project_code = "" then 0
    else rows.foldl (fun m row =>
      if dgetD row "task_number" "" = task_str then
        match py_int (dgetD row "attempt_number" "") with
        | some n => if m < n then n else m
        | none => m
      else m) 0
  max_run + 1

/-- `delete_last_entry` on the loaded rows: the rows written back and the
status string. -/
def delete_last_entry (rows : List Dict) : List Dict × String :=
  match rows.getLast? with
  | none => (rows, "No entries to delete.")
  | some removed =>
    (rows.dropLast,
     "Deleted: Task " ++ dgetD removed "task_number" ""
       ++ " Run " ++ dgetD removed "attempt_number" "" ++ ".")

/-- `clear_project_csv` on the loaded rows. -/
def clear_project_csv (project_code : String) (rows : List Dict) :
    List Dict × String :=
  if rows.isEmpty then (rows, "CSV is already empty.")
  else ([], "Cleared " ++ nat_str rows.length ++ " row(s) from "
    ++ project_code ++ ".")

/-- `setup_project`: `file` is the contents of `jobs.csv` at the resolved
path, if it exists.  The folder is created with `exist_ok=True`; an
existing table is returned untouched with the "opened" status, otherwise
`_write_project(project_code, [])` writes a header-only table. -/
def setup_project (project_code folder_name : String)
    (file : Option String) : Option String × String :=
  match file with
  | some contents =>
    (some contents,
     "Project '" ++ project_code ++ "' opened — " ++ folder_name)
  | none =>
    (some (write_project_string []),
     "Project '" ++ project_code ++ "' created — " ++ folder_name)

/-- `"; ".join(errors)`. -/
def join_semi : List String → String
  | [] => ""
  | [e] => e
  | e :: es => e ++ "; " ++ join_semi es

/-- `clear_all_projects`: `entries` is `os.listdir(BASE_STORAGE)` with each
entry's directory flag; `rm_result e = some msg` models `shutil.rmtree`
raising an exception rendered as `msg`, `none` a successful removal.  The
loop counts successes and collects error messages; exceptions are caught
per folder, so the fold is total.  Returns (count, errors, status). -/
def clear_all_projects (base_is_dir : Bool)
    (entries : List (String × Bool)) (rm_result : String → Option String) :
    Nat × List String × String :=
  if !base_is_dir then (0, [], "No data to clear.")
  else
    let cr := entries.foldl (fun (acc : Nat × List String) e =>
      if e.2 then
        match rm_result e.1 with
        | none => (acc.1 + 1, acc.2)
        | some err => (acc.1, acc.2 ++ [err])
      else acc) (0, [])
    if !cr.2.isEmpty then
      (cr.1, cr.2, "Cleared " ++ nat_str cr.1 ++ " folder(s) — errors: "
        ++ join_semi cr.2)
    else (cr.1, cr.2, "All " ++ nat_str cr.1 ++ " project folder(s) deleted.")

/- ── Folder resolution ───────────────────────────────────────────── -/

/-- Lexicographic comparison of char lists by code point: Python string
`<=` (and Lean's, stated kernel-computably). -/
def cl_le : List Char → List Char → Bool
  | [], _ => true
  | _ :: _, [] => false
  | a :: as, b :: bs =>
    if a.toNat < b.toNat then true
    else if b.toNat < a.toNat then false
    else cl_le as bs

/-- Python `a <= b` on strings. -/
def py_le (a b : String) : Prop := cl_le a.data b.data = true

instance : DecidableRel py_le := fun a b =>
  inferInstanceAs (Decidable (cl_le a.data b.data = true))

/-- Python `s.startswith(pre)`. -/
def py_startswith (s pre : String) : Bool := pre.data.isPrefixOf s.data

/-- The storage root as the folder logic sees it: whether `BASE_STORAGE` is
a directory, the entries `os.listdir` yields with their `isdir` flags, and
whether `os.listdir` raises `OSError`. -/
structure FS where
  base_is_dir : Bool
  entries : List (String × Bool)
  listdir_fails : Bool

/-- `_project_folder(project_code)`, with the current date passed in as the
string `today` (`datetime.now().strftime("%Y%m%d")`): reuse the
lexicographically greatest existing directory whose name starts with
`project_code + "_"`, else the dated name for today. -/
def project_folder (fs : FS) (today project_code : String) : String :=
  let today_name := project_code ++ "_" ++ today
  if fs.listdir_fails then today_name
  else if fs.base_is_dir then
    let cands := (fs.entries.filter (fun e =>
      py_startswith e.1 (project_code ++ "_") && e.2)).map Prod.fst
    if cands.isEmpty then today_name
    else (List.insertionSort py_le cands).getLastD today_name
  else today_name

/-- `project_csv_path`: `os.path.join(BASE_STORAGE, folder, "jobs.csv")`
(separator written as `/`). -/
def project_csv_path (base : String) (fs : FS) (today project_code : String) :
    String :=
  base ++ "/" ++ project_folder fs today project_code ++ "/jobs.csv"

/-- `entry.rsplit("_", 1)`: split at the last underscore, `none` when there
is none (Python then returns the one-element list). -/
def rsplit_underscore : List Char → Option (List Char × List Char)
  | [] => none
  | c :: cs =>
    match rsplit_underscore cs with
    | some (a, b) => some (c :: a, b)
    | none => if c = '_' then some ([], cs) else none

/-- Python `s.isdigit()` on the ASCII names in play: nonempty, all digits. -/
def is_digits (cs : List Char) : Bool :=
  !cs.isEmpty && cs.all Char.isDigit

/-- `list_existing_projects`: the distinct codes of directories named
`<code>_<8 digits>`, sorted (`sorted(set(codes))`). -/
def list_existing_projects (fs : FS) : List String :=
  if !fs.base_is_dir then []
  else if fs.listdir_fails then []
  else
    let codes := fs.entries.filterMap (fun e =>
      if e.2 then
        match rsplit_underscore e.1.data with
        | some (a, b) =>
          if b.length = 8 && is_digits b then some (String.mk a) else none
        | none => none
      else none)
    List.insertionSort py_le codes.dedup


/- ── Small string helpers ────────────────────────────────────────── -/

theorem deleted_msg_ne (t a : String) :
    "Deleted: Task " ++ t ++ " Run " ++ a ++ "." ≠ "No entries to delete." := by
  intro h
  have h2 := congrArg (fun s : String => s.data.head?) h
  simp only [String.data_append] at h2
  simp only [List.cons_append, List.head?_cons] at h2
  exact absurd (Option.some.inj h2) (by decide)

/- ── C10: folder resolution matches bare prefixes ────────────────── -/

/-- The storage-root state of the C10 scenario: two directories, neither of
which `list_existing_projects` attributes to project `P1`. -/
def fs_c10 : FS :=
  ⟨true, [("P1_sub_20240101", true), ("P1_notes", true)], false⟩

set_option maxRecDepth 40000 in
/-- C10: `_project_folder` matches any directory whose name merely starts
with `<project_code>_` and returns the lexicographically greatest full
name, so `resolve_folder("P1")` picks `P1_sub_20240101` — a folder
`list_existing_projects` attributes to `P1_sub`, not `P1` — and
`project_csv_path` then targets that folder for every read and write. -/
theorem resolve_folder_bare_prefix_capture :
    project_folder fs_c10 "20240102" "P1" = "P1_sub_20240101"
    ∧ list_existing_projects fs_c10 = ["P1_sub"]
    ∧ "P1" ∉ list_existing_projects fs_c10
    ∧ project_csv_path "data" fs_c10 "20240102" "P1"
        = "data/P1_sub_20240101/jobs.csv" := by
  refine ⟨by decide, by decide, ?_, by decide⟩
  intro hmem
  rw [show list_existing_projects fs_c10 = ["P1_sub"] from by decide] at hmem
  simp at hmem

/- ── C6: delete_last pops the final row ──────────────────────────── -/

/-- C6: on a nonempty table `delete_last_entry` removes exactly the final
row in on-disk order — whatever its key values — and keeps every other
row unchanged in order; on an empty (or never-written, hence loaded as
empty) table it is a no-op whose status differs from every deletion
status. -/
theorem delete_last_pops_final_row (rows : List Dict) (r : Dict) :
    delete_last_entry (rows ++ [r])
      = (rows, "Deleted: Task " ++ dgetD r "task_number" ""
          ++ " Run " ++ dgetD r "attempt_number" "" ++ ".")
    ∧ delete_last_entry [] = ([], "No entries to delete.")
    ∧ (delete_last_entry (rows ++ [r])).2 ≠ (delete_last_entry []).2 := by
  have h1 : delete_last_entry (rows ++ [r])
      = (rows, "Deleted: Task " ++ dgetD r "task_number" ""
          ++ " Run " ++ dgetD r "attempt_number" "" ++ ".") := by
    unfold delete_last_entry
    rw [List.getLast?_concat, List.dropLast_concat]
  refine ⟨h1, rfl, ?_⟩
  rw [h1]
  exact deleted_msg_ne _ _

/- ── C8: open_or_create never touches an existing table ──────────── -/

/-- C8: `setup_project` on an existing table returns its contents
byte-for-byte unchanged with the "opened" status; on a fresh project it
writes exactly the header-only table and returns the "created" status;
the two statuses are always distinct, and a second call on the table the
first call created leaves it unchanged. -/
theorem open_or_create_idempotent (project_code folder_name contents : String) :
    setup_project project_code folder_name (some contents)
      = (some contents,
         "Project '" ++ project_code ++ "' opened — " ++ folder_name)
    ∧ setup_project project_code folder_name none
      = (some (write_project_string []),
         "Project '" ++ project_code ++ "' created — " ++ folder_name)
    ∧ (setup_project project_code folder_name
        ((setup_project project_code folder_name none).1)).1
      = (setup_project project_code folder_name none).1
    ∧ (setup_project project_code folder_name (some contents)).2
      ≠ (setup_project project_code folder_name none).2 := by
  refine ⟨rfl, rfl, rfl, ?_⟩
  intro h
  have h2 := congrArg String.length h
  simp only [setup_project, String.length_append] at h2
  have e1 : ("' opened — " : String).length = 11 := by decide
  have e2 : ("' created — " : String).length = 12 := by decide
  omega

/- ── C9: clear_all_projects is per-folder independent ────────────── -/

theorem clear_fold_spec (entries : List (String × Bool))
    (rm_result : String → Option String) (c0 : Nat) (e0 : List String) :
    entries.foldl (fun (acc : Nat × List String) e =>
      if e.2 then
        match rm_result e.1 with
        | none => (acc.1 + 1, acc.2)
        | some err => (acc.1, acc.2 ++ [err])
      else acc) (c0, e0)
    = (c0 + (((entries.filter (fun e => e.2)).map Prod.fst).filter
          (fun d => (rm_result d).isNone)).length,
       e0 ++ ((entries.filter (fun e => e.2)).map Prod.fst).filterMap rm_result) := by
  induction entries generalizing c0 e0 with
  | nil => simp
  | cons e t ih =>
    by_cases he : e.2
    · cases hrm : rm_result e.1 with
      | none => simp [he, hrm, ih, Nat.add_comm, Nat.add_assoc, Nat.add_left_comm]
      | some err => simp [he, hrm, ih]
    · simp [he, ih]

/-- C9: `clear_all_projects` attempts each immediate subdirectory on its
own: removals after a failure still happen (the success count counts every
non-failing directory, wherever it stands in the listing), every failure
is collected in order, nothing is raised (the fold is total), and the
status reports the collected failures together with the success count. -/
theorem clear_all_projects_independent (entries : List (String × Bool))
    (rm_result : String → Option String) :
    (clear_all_projects true entries rm_result).1
      = (((entries.filter (fun e => e.2)).map Prod.fst).filter
          (fun d => (rm_result d).isNone)).length
    ∧ (clear_all_projects true entries rm_result).2.1
      = ((entries.filter (fun e => e.2)).map Prod.fst).filterMap rm_result
    ∧ (clear_all_projects true entries rm_result).2.2
      = (if ((entries.filter (fun e => e.2)).map Prod.fst).filterMap rm_result
            = [] then
          "All " ++ nat_str (((entries.filter (fun e => e.2)).map
              Prod.fst).filter (fun d => (rm_result d).isNone)).length
            ++ " project folder(s) deleted."
        else
          "Cleared " ++ nat_str (((entries.filter (fun e => e.2)).map
              Prod.fst).filter (fun d => (rm_result d).isNone)).length
            ++ " folder(s) — errors: "
            ++ join_semi (((entries.filter (fun e => e.2)).map
                Prod.fst).filterMap rm_result)) := by
  have hf := clear_fold_spec entries rm_result 0 []
  unfold clear_all_projects
  rw [hf]
  simp only [Nat.zero_add, List.nil_append]
  by_cases hemp : ((entries.filter (fun e => e.2)).map Prod.fst).filterMap
      rm_result = []
  · rw [hemp]
    exact ⟨rfl, rfl, rfl⟩
  · have hcond : (((entries.filter (fun e => e.2)).map Prod.fst).filterMap
        rm_result).isEmpty = false := by
      simpa [List.isEmpty_iff] using hemp
    rw [hcond]
    refine ⟨rfl, rfl, ?_⟩
    rw [if_neg hemp]
    rfl


/- ── C5: next_run_number ─────────────────────────────────────────── -/

/-- The numeric attempt values of the rows of one task, in row order. -/
def task_attempts (task_str : String) (rows : List Dict) : List Int :=
  rows.filterMap (fun row =>
    if dgetD row "task_number" "" = task_str then
      py_int (dgetD row "attempt_number" "")
    else none)

theorem int_if_lt_eq_max (m n : Int) : (if m < n then n else m) = max m n := by
  by_cases h : m < n
  · simp [h, max_eq_right h.le]
  · simp [h, max_eq_left (not_lt.mp h)]

theorem next_fold_eq_foldl_max (rows : List Dict) (task_str : String) (m : Int) :
    rows.foldl (fun m row =>
      if dgetD row "task_number" "" = task_str then
        match py_int (dgetD row "attempt_number" "") with
        | some n => if m < n then n else m
        | none => m
      else m) m
    = (task_attempts task_str rows).foldl max m := by
  have hfun : (fun (m n : Int) => if m < n then n else m) = max := by
    funext m n
    exact int_if_lt_eq_max m n
  rw [← hfun]
  induction rows generalizing m with
  | nil => rfl
  | cons row t ih =>
    by_cases hT : dgetD row "task_number" "" = task_str
    · cases hA : py_int (dgetD row "attempt_number" "") with
      | none => simp [task_attempts, hT, hA, ih]
      | some n => simp [task_attempts, hT, hA, ih]
    · simp [task_attempts, hT, ih]

/-- The spec scenario table for `next_attempt_number`. -/
def spec_rows_c5 : List Dict :=
  [store_row [("task_number", "2"), ("attempt_number", "1")],
   store_row [("task_number", "2"), ("attempt_number", "3")],
   store_row [("task_number", "1"), ("attempt_number", "5")]]

set_option maxRecDepth 100000 in
/-- C5 (amended): `next_run_number` returns one plus the maximum of `0` and
the numeric attempt values of the rows of the task (the running maximum
starts at `0`, so attempt values below `1` never lower the result);
with no table, no rows, no rows for the task, only non-numeric attempts,
or an empty (falsy) project code, the result is `1`; non-numeric attempt
values are skipped, not errors.  On the spec scenario rows it returns `4`
for task 2 and `1` for task 9. -/
theorem next_run_number_max_with_zero (task : Int) (project_code : String)
    (rows : List Dict) :
    next_run_number task project_code rows
      = (if project_code = "" then 0
         else (task_attempts (py_str_of_int task) rows).foldl max 0) + 1
    ∧ next_run_number task project_code [] = 1
    ∧ next_run_number 2 "P1" spec_rows_c5 = 4
    ∧ next_run_number 9 "P1" spec_rows_c5 = 1 := by
  refine ⟨?_, ?_, by decide, by decide⟩
  · unfold next_run_number
    by_cases hc : project_code = ""
    · simp [hc]
    · simp only [hc, if_neg hc]
      rw [next_fold_eq_foldl_max]
  · unfold next_run_number
    by_cases hc : project_code = ""
    · simp [hc]
    · simp [hc]

/-- A table whose only row of task 2 has the (well-formed, numeric but
negative) attempt value `-5`. -/
def neg_attempt_rows : List Dict :=
  [store_row [("task_number", "2"), ("attempt_number", "-5")]]

/-- The next attempt number as the claim words it: the maximum of the
numeric attempt values of the task plus one, or `1` when the task has no
numeric rows.  Stated only to compare with what the code computes. -/
def claimed_next_attempt (task : Int) (rows : List Dict) : Int :=
  match (task_attempts (py_str_of_int task) rows).max? with
  | some m => m + 1
  | none => 1

set_option maxRecDepth 100000 in
/-- C5 (counterexample): on a row with attempt value `-5` for task 2, the
claimed value `max(attempt) + 1` is `-4`, but `next_run_number` returns
`1`: the claim as stated fails for negative numeric attempt values. -/
theorem next_run_number_negative_attempt_cex :
    next_run_number 2 "P1" neg_attempt_rows = 1
    ∧ claimed_next_attempt 2 neg_attempt_rows = -4
    ∧ next_run_number 2 "P1" neg_attempt_rows
        ≠ claimed_next_attempt 2 neg_attempt_rows := by
  exact ⟨by decide, by decide, by decide⟩

/- ── C3: a failed rewrite is not all-or-nothing ──────────────────── -/

theorem str_concat_length (l : List String) :
    (str_concat l).length = (l.map String.length).sum := by
  induction l with
  | nil => rfl
  | cons s t ih =>
    have h1 : str_concat (s :: t) = s ++ str_concat t := rfl
    rw [h1, String.length_append, ih]
    simp

theorem sum_take_lt (l : List Nat) (k : Nat) (hk : k < l.length)
    (hpos : ∀ x ∈ l, 0 < x) : (l.take k).sum < l.sum := by
  induction l generalizing k with
  | nil => simp at hk
  | cons x t ih =>
    cases k with
    | zero =>
      have hx : 0 < x := hpos x (by simp)
      have : (t.take 0).sum ≤ t.sum := by simp [Nat.zero_le]
      simp only [List.take_zero, List.sum_nil, List.sum_cons]
      omega
    | succ k =>
      have hk' : k < t.length := by simpa using hk
      have := ih k hk' (fun y hy => hpos y (by simp [hy]))
      simp only [List.take_succ_cons, List.sum_cons]
      omega

theorem write_chunks_length_pos (rows : List Dict) :
    ∀ s ∈ write_chunks rows, 0 < s.length := by
  intro s hs
  have hline : ∀ fields, 0 < (String.mk (line_of fields)).length := by
    intro fields
    show 0 < (line_of fields).length
    simp [line_of, List.length_append]
  rcases List.mem_cons.mp hs with h | h
  · subst h
    exact hline _
  · rcases List.mem_map.mp h with ⟨r, _, hr⟩
    rw [← hr]
    exact hline _

/-- C3 (amended): `_write_project` opens the table file in mode "w", which
truncates it, and then writes the header chunk and one chunk per row in
sequence; a failure after `k` chunks leaves exactly those `k` chunks, so
for every `k` short of the full write the on-disk table differs from the
completely rewritten table — the rewrite is not all-or-nothing, and a
failed rewrite leaves a partially-written table. -/
theorem partial_write_not_all_or_nothing (rows : List Dict) (k : Nat)
    (hk : k < (write_chunks rows).length) :
    file_after_partial_write rows k ≠ write_project_string rows := by
  intro h
  have h2 := congrArg String.length h
  rw [file_after_partial_write, write_project_string, str_concat_length,
      str_concat_length, List.map_take] at h2
  have hlt := sum_take_lt ((write_chunks rows).map String.length) k
    (by simpa using hk)
    (by
      intro x hx
      rcases List.mem_map.mp hx with ⟨s, hs, hsx⟩
      exact hsx ▸ write_chunks_length_pos rows s hs)
  omega

/-- The old table row of the C3 scenario. -/
def c3_row_a : Dict := store_row [("task_number", "1"), ("attempt_number", "1")]

/-- The row the failed rewrite was appending in the C3 scenario. -/
def c3_row_b : Dict := store_row [("task_number", "2"), ("attempt_number", "1")]

set_option maxRecDepth 100000 in
/-- C3 (witness): rewriting the table `[c3_row_a, c3_row_b]` and failing
after one of its three chunks leaves a file that is not the complete
table. -/
theorem partial_write_not_all_or_nothing_witness :
    1 < (write_chunks [c3_row_a, c3_row_b]).length
    ∧ file_after_partial_write [c3_row_a, c3_row_b] 1
        ≠ write_project_string [c3_row_a, c3_row_b] :=
  ⟨by decide, partial_write_not_all_or_nothing [c3_row_a, c3_row_b] 1 (by decide)⟩

set_option maxRecDepth 1000000 in
/-- C3 (counterexample): the table held `[c3_row_a]`; a rewrite to
`[c3_row_a, c3_row_b]` that fails after the header chunk leaves a file
that is neither the old table nor the new one, so the on-disk table was
changed by a failed rewrite — the write is not all-or-nothing as the
claim states. -/
theorem partial_write_changes_table_cex :
    file_after_partial_write [c3_row_a, c3_row_b] 1
        ≠ write_project_string [c3_row_a]
    ∧ file_after_partial_write [c3_row_a, c3_row_b] 1
        ≠ write_project_string [c3_row_a, c3_row_b] := by
  exact ⟨by decide, by decide⟩


/- ── C4: folder reuse picks the lexicographically greatest match ─── -/

theorem cl_le_cons (x y : Char) (xs ys : List Char) :
    cl_le (x :: xs) (y :: ys) = true
      ↔ (x.toNat < y.toNat ∨ (x.toNat = y.toNat ∧ cl_le xs ys = true)) := by
  simp only [cl_le]
  by_cases h1 : x.toNat < y.toNat
  · simp [h1]
  · by_cases h2 : y.toNat < x.toNat
    · simp [h1, h2]
      omega
    · have h3 : x.toNat = y.toNat := by omega
      simp [h1, h2, h3]

theorem cl_le_refl (a : List Char) : cl_le a a = true := by
  induction a with
  | nil => rfl
  | cons x xs ih => exact (cl_le_cons x x xs xs).mpr (Or.inr ⟨rfl, ih⟩)

theorem cl_le_total (a b : List Char) : cl_le a b = true ∨ cl_le b a = true := by
  induction a generalizing b with
  | nil => exact Or.inl rfl
  | cons x xs ih =>
    cases b with
    | nil => exact Or.inr rfl
    | cons y ys =>
      rcases Nat.lt_trichotomy x.toNat y.toNat with h | h | h
      · exact Or.inl ((cl_le_cons x y xs ys).mpr (Or.inl h))
      · rcases ih ys with h2 | h2
        · exact Or.inl ((cl_le_cons x y xs ys).mpr (Or.inr ⟨h, h2⟩))
        · exact Or.inr ((cl_le_cons y x ys xs).mpr (Or.inr ⟨h.symm, h2⟩))
      · exact Or.inr ((cl_le_cons y x ys xs).mpr (Or.inl h))

theorem cl_le_trans (a b c : List Char) (hab : cl_le a b = true)
    (hbc : cl_le b c = true) : cl_le a c = true := by
  induction a generalizing b c with
  | nil => rfl
  | cons x xs ih =>
    cases b with
    | nil => simp [cl_le] at hab
    | cons y ys =>
      cases c with
      | nil => simp [cl_le] at hbc
      | cons z zs =>
        rcases (cl_le_cons x y xs ys).mp hab with h1 | ⟨h1, h1t⟩ <;>
          rcases (cl_le_cons y z ys zs).mp hbc with h2 | ⟨h2, h2t⟩
        · exact (cl_le_cons x z xs zs).mpr (Or.inl (h1.trans h2))
        · exact (cl_le_cons x z xs zs).mpr (Or.inl (h2 ▸ h1))
        · exact (cl_le_cons x z xs zs).mpr (Or.inl (h1 ▸ h2))
        · exact (cl_le_cons x z xs zs).mpr
            (Or.inr ⟨h1.trans h2, ih ys zs h1t h2t⟩)

theorem py_le_refl (a : String) : py_le a a := cl_le_refl a.data

instance : IsTotal String py_le := ⟨fun a b => cl_le_total a.data b.data⟩

instance : IsTrans String py_le :=
  ⟨fun a b c hab hbc => cl_le_trans a.data b.data c.data hab hbc⟩

theorem getLastD_mem {α : Type} (l : List α) (d : α) (h : l ≠ []) :
    l.getLastD d ∈ l := by
  induction l generalizing d with
  | nil => exact absurd rfl h
  | cons x t ih =>
    cases ht : t with
    | nil => simp [List.getLastD]
    | cons y u =>
      rw [List.getLastD_cons]
      right
      rw [← ht]
      exact ih x (by simp [ht])

theorem sorted_le_getLastD (l : List String) (hs : List.Sorted py_le l)
    (x : String) (hx : x ∈ l) (d : String) : py_le x (l.getLastD d) := by
  induction l generalizing d with
  | nil => simp at hx
  | cons a t ih =>
    rw [List.sorted_cons] at hs
    rw [List.getLastD_cons]
    rcases List.mem_cons.mp hx with h | h
    · subst h
      cases t with
      | nil => simp [List.getLastD, py_le_refl]
      | cons y u => exact hs.1 _ (getLastD_mem (y :: u) x (by simp))
    · exact ih hs.2 h a

/-- C4: whenever the storage root is a readable directory holding at least
one subdirectory whose name starts with `<project_code>_`, the folder
`_project_folder` resolves is one of those existing subdirectories, and it
is lexicographically greatest among them — the current date plays no
role. -/
theorem resolve_folder_reuses_greatest (fs : FS) (today project_code : String)
    (h1 : fs.listdir_fails = false) (h2 : fs.base_is_dir = true)
    (h3 : ∃ e ∈ fs.entries,
      (py_startswith e.1 (project_code ++ "_") && e.2) = true) :
    (∃ e ∈ fs.entries,
      (py_startswith e.1 (project_code ++ "_") && e.2) = true
        ∧ project_folder fs today project_code = e.1)
    ∧ ∀ e ∈ fs.entries,
        (py_startswith e.1 (project_code ++ "_") && e.2) = true
          → py_le e.1 (project_folder fs today project_code) := by
  have hcne : (fs.entries.filter (fun e =>
      py_startswith e.1 (project_code ++ "_") && e.2)).map Prod.fst ≠ [] := by
    rcases h3 with ⟨e, he, hp⟩
    intro hnil
    have hm : e.1 ∈ (fs.entries.filter (fun e =>
        py_startswith e.1 (project_code ++ "_") && e.2)).map Prod.fst :=
      List.mem_map_of_mem Prod.fst (List.mem_filter.mpr ⟨he, hp⟩)
    rw [hnil] at hm
    simp at hm
  have hemp : ((fs.entries.filter (fun e =>
      py_startswith e.1 (project_code ++ "_") && e.2)).map Prod.fst).isEmpty
      = false := by
    simpa [List.isEmpty_iff] using hcne
  have hres : project_folder fs today project_code
      = (List.insertionSort py_le ((fs.entries.filter (fun e =>
          py_startswith e.1 (project_code ++ "_") && e.2)).map
            Prod.fst)).getLastD (project_code ++ "_" ++ today) := by
    unfold project_folder
    rw [h1, h2]
    simp only [Bool.false_eq_true, if_false, if_true, hemp]
  have hperm := List.perm_insertionSort py_le ((fs.entries.filter (fun e =>
      py_startswith e.1 (project_code ++ "_") && e.2)).map Prod.fst)
  have hsorted := List.sorted_insertionSort py_le ((fs.entries.filter (fun e =>
      py_startswith e.1 (project_code ++ "_") && e.2)).map Prod.fst)
  have hsne : List.insertionSort py_le ((fs.entries.filter (fun e =>
      py_startswith e.1 (project_code ++ "_") && e.2)).map Prod.fst) ≠ [] := by
    intro hn
    rw [hn] at hperm
    exact hcne hperm.symm.eq_nil
  constructor
  · have hmem := getLastD_mem _ (project_code ++ "_" ++ today) hsne
    have hmem2 := hperm.mem_iff.mp hmem
    rcases List.mem_map.mp hmem2 with ⟨e, hef, he1⟩
    rcases List.mem_filter.mp hef with ⟨he, hp⟩
    exact ⟨e, he, hp, by rw [hres, he1]⟩
  · intro e he hp
    have hm : e.1 ∈ (fs.entries.filter (fun e =>
        py_startswith e.1 (project_code ++ "_") && e.2)).map Prod.fst :=
      List.mem_map_of_mem Prod.fst (List.mem_filter.mpr ⟨he, hp⟩)
    have hm2 := hperm.mem_iff.mpr hm
    rw [hres]
    exact sorted_le_getLastD _ hsorted e.1 hm2 _

/-- The C4 scenario storage root: only `P1_20240101` exists. -/
def fs_c4 : FS := ⟨true, [("P1_20240101", true)], false⟩

/-- C4 (witness): with only `P1_20240101` on disk, resolving `P1` on
`20240102` returns the existing `P1_20240101`, not a folder named with
the current date. -/
theorem resolve_folder_reuses_greatest_witness :
    (∃ e ∈ fs_c4.entries,
      (py_startswith e.1 ("P1" ++ "_") && e.2) = true
        ∧ project_folder fs_c4 "20240102" "P1" = e.1)
    ∧ project_folder fs_c4 "20240102" "P1" = "P1_20240101" :=
  ⟨(resolve_folder_reuses_greatest fs_c4 "20240102" "P1" rfl rfl
      ⟨("P1_20240101", true), by decide, by decide⟩).1,
   by decide⟩


/- ── C1: the matched-row merge rule ──────────────────────────────── -/

/-- The value one header of a matched row holds after the update loop:
the metadata value wherever the metadata binds the header and the current
call's run mapping gives it no value or a falsy (empty) one; else the run
value wherever the run mapping binds it; else the row's stored value. -/
def merged_value (meta run_data row : Dict) (k : String) : Option String :=
  if dcontains meta k && !truthy? (dget? run_data k) then
    some (dgetD meta k "")
  else if dcontains run_data k then some (dgetD run_data k "")
  else dget? row k

theorem row_update_step_get_self (meta run_data row : Dict) (h : String) :
    dget? (row_update_step meta run_data row h) h
      = merged_value meta run_data row h := by
  unfold row_update_step merged_value
  by_cases hm : (dcontains meta h && !truthy? (dget? run_data h)) = true
  · rw [if_pos hm, if_pos hm, dget?_set_self]
  · rw [if_neg hm, if_neg hm]
    by_cases hr : dcontains run_data h = true
    · rw [if_pos hr, if_pos hr, dget?_set_self]
    · rw [if_neg hr, if_neg hr]

theorem row_update_step_get_ne (meta run_data row : Dict) (h k : String)
    (hk : k ≠ h) :
    dget? (row_update_step meta run_data row h) k = dget? row k := by
  unfold row_update_step
  by_cases hm : (dcontains meta h && !truthy? (dget? run_data h)) = true
  · rw [if_pos hm, dget?_set_ne _ _ _ _ hk]
    by_cases hr : dcontains run_data h = true
    · rw [if_pos hr, dget?_set_ne _ _ _ _ hk]
    · rw [if_neg hr]
  · rw [if_neg hm]
    by_cases hr : dcontains run_data h = true
    · rw [if_pos hr, dget?_set_ne _ _ _ _ hk]
    · rw [if_neg hr]

theorem merged_value_step (meta run_data row : Dict) (h k : String) :
    merged_value meta run_data (row_update_step meta run_data row h) k
      = merged_value meta run_data row k := by
  unfold merged_value
  by_cases hm : (dcontains meta k && !truthy? (dget? run_data k)) = true
  · rw [if_pos hm, if_pos hm]
  · rw [if_neg hm, if_neg hm]
    by_cases hr : dcontains run_data k = true
    · rw [if_pos hr, if_pos hr]
    · rw [if_neg hr, if_neg hr]
      by_cases hk : k = h
      · subst hk
        rw [row_update_step_get_self]
        unfold merged_value
        rw [if_neg hm, if_neg hr]
      · exact row_update_step_get_ne _ _ _ _ _ hk

theorem update_fold_get (meta run_data : Dict) (hs : List String)
    (row : Dict) (k : String) :
    dget? (hs.foldl (row_update_step meta run_data) row) k
      = if k ∈ hs then merged_value meta run_data row k else dget? row k := by
  induction hs generalizing row with
  | nil => simp
  | cons h t ih =>
    rw [List.foldl_cons, ih]
    by_cases hmem : k ∈ t
    · rw [if_pos hmem, if_pos (List.mem_cons.mpr (Or.inr hmem)),
          merged_value_step]
    · rw [if_neg hmem]
      by_cases hk : k = h
      · subst hk
        rw [if_pos (List.mem_cons.mpr (Or.inl rfl)), row_update_step_get_self]
      · rw [if_neg (by simp [hk, hmem]), row_update_step_get_ne _ _ _ _ _ hk]

theorem update_matched_row_get (meta run_data row : Dict) (k : String) :
    dget? (update_matched_row meta run_data row) k
      = if k ∈ PROJECT_HEADERS then merged_value meta run_data row k
        else dget? row k :=
  update_fold_get meta run_data PROJECT_HEADERS row k

theorem update_first_match_cons (meta run_data : Dict) (ts rs : String)
    (row : Dict) (t : List Dict) :
    update_first_match meta run_data ts rs (row :: t)
      = if row_matches ts rs row then
          some (update_matched_row meta run_data row :: t)
        else (update_first_match meta run_data ts rs t).map
          (fun r2 => row :: r2) := by
  by_cases hm : row_matches ts rs row = true
  · simp [update_first_match, hm]
  · cases hrec : update_first_match meta run_data ts rs t <;>
      simp [update_first_match, hm, hrec]

theorem update_first_match_split (meta run_data : Dict) (ts rs : String)
    (pre post : List Dict) (row : Dict)
    (hpre : ∀ x ∈ pre, row_matches ts rs x = false)
    (hrow : row_matches ts rs row = true) :
    update_first_match meta run_data ts rs (pre ++ row :: post)
      = some (pre ++ update_matched_row meta run_data row :: post) := by
  induction pre with
  | nil =>
    rw [List.nil_append, update_first_match_cons, if_pos hrow, List.nil_append]
  | cons x p ih =>
    have hx : row_matches ts rs x = false := hpre x (by simp)
    rw [List.cons_append, update_first_match_cons, hx]
    simp only [Bool.false_eq_true, if_false]
    rw [ih (fun y hy => hpre y (by simp [hy]))]
    rfl

set_option maxRecDepth 40000 in
/-- C1 (amended): when an `upsert_run` call's key matches an existing row,
the row is updated in place and the call reports "updated"; field by
field, a header bound by the metadata mapping for which the current
call's run mapping carries no value or an empty value is overwritten with
the metadata value — regardless of the row's stored value, which may be
non-empty; a header bound by the run mapping to anything (with a
non-empty value, or an empty one not overridden by metadata) is
overwritten with the run value; every other field keeps the row's stored
value.  The merge guard tests the current call's run mapping, not the
row's stored field. -/
theorem upsert_matched_update_merge (project_code : String)
    (meta run_data : Dict) (pre post : List Dict) (row : Dict)
    (hpre : ∀ x ∈ pre, row_matches (dgetD run_data "task_number" "")
      (dgetD run_data "attempt_number" "") x = false)
    (hrow : row_matches (dgetD run_data "task_number" "")
      (dgetD run_data "attempt_number" "") row = true) :
    append_or_update_project_run project_code meta run_data (pre ++ row :: post)
      = (pre ++ update_matched_row meta run_data row :: post,
         "Task " ++ dgetD run_data "task_number" "" ++ " run "
           ++ dgetD run_data "attempt_number" "" ++ ": updated.")
    ∧ ∀ k, dget? (update_matched_row meta run_data row) k
        = if k ∈ PROJECT_HEADERS ∧ dcontains meta k = true
              ∧ truthy? (dget? run_data k) = false then
            some (dgetD meta k "")
          else if k ∈ PROJECT_HEADERS ∧ dcontains run_data k = true then
            some (dgetD run_data k "")
          else dget? row k := by
  constructor
  · have hm := update_first_match_split meta run_data
      (dgetD run_data "task_number" "") (dgetD run_data "attempt_number" "")
      pre post row hpre hrow
    simp only [append_or_update_project_run, hm]
  · intro k
    rw [update_matched_row_get]
    by_cases hmem : k ∈ PROJECT_HEADERS
    · rw [if_pos hmem]
      unfold merged_value
      by_cases hcm : dcontains meta k = true
      · by_cases htr : truthy? (dget? run_data k) = true
        · by_cases hcr : dcontains run_data k = true
          · simp [hmem, hcm, htr, hcr]
          · simp [hmem, hcm, htr, hcr]
        · simp [hmem, hcm, htr]
      · by_cases hcr : dcontains run_data k = true
        · simp [hmem, hcm, hcr]
        · simp [hmem, hcm, hcr]
    · simp [hmem]

/-- The two calls of the C1 spec scenario. -/
def c1_calls : List (Dict × Dict) :=
  [([("client", "A")],
    [("task_number", "1"), ("attempt_number", "1"), ("asset_id", "X")]),
   ([("client", "B")],
    [("task_number", "1"), ("attempt_number", "1"), ("asset_id", "Y")])]

set_option maxRecDepth 1000000 in
/-- C1 (counterexample): the spec scenario itself.  The first call stores
client "A" (non-empty); the second call supplies metadata client "B" and
run values only for the key fields and asset_id.  After the second call
the single row's client is "B", not "A": the non-empty stored run field
was replaced by a metadata value, because the merge guard tests the
current call's run mapping rather than the row's stored value. -/
theorem upsert_meta_clobbers_stored_value_cex :
    (upsert_run_seq "P1" c1_calls).map
      (fun r => (dgetD r "client" "", dgetD r "asset_id" "")) = [("B", "Y")]
    ∧ (upsert_run_seq "P1" c1_calls).map (fun r => dgetD r "client" "")
        ≠ ["A"] := by
  exact ⟨by decide, by decide⟩

/-- The matched row of the C1 witness scenario, as stored on disk. -/
def c1_stored_row : Dict :=
  store_row [("project_code", "P1"), ("client", "A"), ("task_number", "1"),
    ("attempt_number", "1"), ("asset_id", "X")]

set_option maxRecDepth 100000 in
/-- C1 (witness): updating the stored row (client "A") with metadata
client "B" and a run mapping not binding client overwrites client with
"B", and the call reports "updated". -/
theorem upsert_matched_update_merge_witness :
    dget? (update_matched_row [("client", "B")]
      [("task_number", "1"), ("attempt_number", "1"), ("asset_id", "Y")]
      c1_stored_row) "client" = some "B"
    ∧ (append_or_update_project_run "P1" [("client", "B")]
        [("task_number", "1"), ("attempt_number", "1"), ("asset_id", "Y")]
        [c1_stored_row]).2 = "Task 1 run 1: updated." := by
  have h := upsert_matched_update_merge "P1" [("client", "B")]
    [("task_number", "1"), ("attempt_number", "1"), ("asset_id", "Y")]
    [] [] c1_stored_row (by intro x hx; simp at hx) (by decide)
  constructor
  · have h2 := h.2 "client"
    rw [if_pos ⟨by decide, by decide, by decide⟩] at h2
    exact h2.trans (by decide)
  · have h1 := h.1
    simp only [List.nil_append] at h1
    rw [h1]
    decide


/- ── C7: CSV round trip ──────────────────────────────────────────── -/

theorem needs_quote_false_mem (f : List Char) (h : needs_quote f = false) :
    ∀ c ∈ f, ¬ c = ',' ∧ ¬ c = '"' ∧ ¬ c = '\r' ∧ ¬ c = '\n' := by
  intro c hc
  unfold needs_quote at h
  rw [List.any_eq_false] at h
  have h2 := h c hc
  simp only [Bool.or_eq_true, decide_eq_true_eq, not_or] at h2
  exact ⟨h2.1.1.1, h2.1.1.2, h2.1.2, h2.2⟩

theorem parse_unquoted_run (cs : List Char) (cur_rec : List String)
    (acc : List (List String)) :
    ∀ (f : List Char),
      (∀ c ∈ f, ¬ c = ',' ∧ ¬ c = '"' ∧ ¬ c = '\r' ∧ ¬ c = '\n') →
      ∀ cur, csv_parse (f ++ cs) .unquoted cur cur_rec acc
        = csv_parse cs .unquoted (cur ++ f) cur_rec acc := by
  intro f
  induction f with
  | nil => intro _ cur; simp
  | cons c f2 ih =>
    intro hall cur
    obtain ⟨h1, h2, h3, h4⟩ := hall c (by simp)
    rw [List.cons_append]
    simp only [csv_parse]
    rw [if_neg h1, if_neg h3, if_neg h4]
    rw [ih (fun x hx => hall x (by simp [hx])) (cur ++ [c])]
    simp

theorem parse_quoted_run (cs : List Char) (cur_rec : List String)
    (acc : List (List String)) :
    ∀ (f : List Char) (cur : List Char),
      csv_parse (esc_quotes f ++ '"' :: cs) .quoted cur cur_rec acc
        = csv_parse cs .quoteEnd (cur ++ f) cur_rec acc := by
  intro f
  induction f with
  | nil =>
    intro cur
    simp [esc_quotes, csv_parse]
  | cons c f2 ih =>
    intro cur
    by_cases hq : c = '"'
    · subst hq
      simp only [esc_quotes, List.cons_append, csv_parse]
      simpa using ih (cur ++ ['"'])
    · simp only [esc_quotes, if_neg hq, List.cons_append, csv_parse, hq]
      simpa using ih (cur ++ [c])


theorem bool_not_true_eq_false {b : Bool} (h : ¬ b = true) : b = false := by
  revert h
  cases b <;> simp

/- Single parser steps on literal terminator characters reduce by `rfl`;
steps on an arbitrary plain character need the four inequalities. -/

theorem step_fs_quote (rest cur : List Char) (cur_rec : List String) (acc : List (List String)) :
    csv_parse ('"' :: rest) .fieldStart cur cur_rec acc
      = csv_parse rest .quoted [] cur_rec acc := rfl

theorem step_fs_comma (rest cur : List Char) (cur_rec : List String) (acc : List (List String)) :
    csv_parse (',' :: rest) .fieldStart cur cur_rec acc
      = csv_parse rest .fieldStart [] (cur_rec ++ [""]) acc := rfl

theorem step_fs_cr (rest cur : List Char) (cur_rec : List String) (acc : List (List String)) :
    csv_parse ('\r' :: rest) .fieldStart cur cur_rec acc
      = csv_parse rest .afterCR [] [] (acc ++ [cur_rec ++ [""]]) := rfl

theorem step_rs_quote (rest cur : List Char) (cur_rec : List String) (acc : List (List String)) :
    csv_parse ('"' :: rest) .recStart cur cur_rec acc
      = csv_parse rest .quoted [] [] acc := rfl

theorem step_rs_comma (rest cur : List Char) (cur_rec : List String) (acc : List (List String)) :
    csv_parse (',' :: rest) .recStart cur cur_rec acc
      = csv_parse rest .fieldStart [] [""] acc := rfl

theorem step_cr_lf (rest cur : List Char) (cur_rec : List String) (acc : List (List String)) :
    csv_parse ('\n' :: rest) .afterCR cur cur_rec acc
      = csv_parse rest .recStart [] [] acc := rfl

theorem step_unq_comma (rest cur : List Char) (cur_rec : List String) (acc : List (List String)) :
    csv_parse (',' :: rest) .unquoted cur cur_rec acc
      = csv_parse rest .fieldStart [] (cur_rec ++ [String.mk cur]) acc := rfl

theorem step_unq_cr (rest cur : List Char) (cur_rec : List String) (acc : List (List String)) :
    csv_parse ('\r' :: rest) .unquoted cur cur_rec acc
      = csv_parse rest .afterCR [] [] (acc ++ [cur_rec ++ [String.mk cur]]) := rfl

theorem step_qe_comma (rest cur : List Char) (cur_rec : List String) (acc : List (List String)) :
    csv_parse (',' :: rest) .quoteEnd cur cur_rec acc
      = csv_parse rest .fieldStart [] (cur_rec ++ [String.mk cur]) acc := rfl

theorem step_qe_cr (rest cur : List Char) (cur_rec : List String) (acc : List (List String)) :
    csv_parse ('\r' :: rest) .quoteEnd cur cur_rec acc
      = csv_parse rest .afterCR [] [] (acc ++ [cur_rec ++ [String.mk cur]]) := rfl

theorem step_fs_plain (c : Char) (rest cur : List Char) (cur_rec : List String)
    (acc : List (List String)) (h1 : ¬ c = ',') (h2 : ¬ c = '"')
    (h3 : ¬ c = '\r') (h4 : ¬ c = '\n') :
    csv_parse (c :: rest) .fieldStart cur cur_rec acc
      = csv_parse rest .unquoted [c] cur_rec acc := by
  simp only [csv_parse]
  rw [if_neg h2, if_neg h1, if_neg h3, if_neg h4]

theorem step_rs_plain (c : Char) (rest cur : List Char) (cur_rec : List String)
    (acc : List (List String)) (h1 : ¬ c = ',') (h2 : ¬ c = '"')
    (h3 : ¬ c = '\r') (h4 : ¬ c = '\n') :
    csv_parse (c :: rest) .recStart cur cur_rec acc
      = csv_parse rest .unquoted [c] [] acc := by
  simp only [csv_parse]
  rw [if_neg h2, if_neg h1, if_neg h3, if_neg h4]

theorem enc_quoted_shape (f X : List Char) (hq : needs_quote f = true) :
    enc_field f ++ X = '"' :: (esc_quotes f ++ '"' :: X) := by
  unfold enc_field
  rw [if_pos hq]
  simp

theorem parse_field_comma (f cs : List Char) (cur_rec : List String)
    (acc : List (List String)) :
    csv_parse (enc_field f ++ ',' :: cs) .fieldStart [] cur_rec acc
      = csv_parse cs .fieldStart [] (cur_rec ++ [String.mk f]) acc := by
  by_cases hq : needs_quote f = true
  · rw [enc_quoted_shape f _ hq, step_fs_quote,
        parse_quoted_run (',' :: cs) cur_rec acc f [], step_qe_comma]
    simp
  · have hall := needs_quote_false_mem f (bool_not_true_eq_false hq)
    rw [show enc_field f = f from by unfold enc_field; rw [if_neg hq]]
    cases f with
    | nil => rw [List.nil_append, step_fs_comma]
    | cons c f2 =>
      obtain ⟨h1, h2, h3, h4⟩ := hall c (by simp)
      rw [List.cons_append, step_fs_plain c _ _ _ _ h1 h2 h3 h4,
          parse_unquoted_run (',' :: cs) cur_rec acc f2
            (fun x hx => hall x (by simp [hx])) [c], step_unq_comma]
      simp

theorem parse_field_crlf (f cs : List Char) (cur_rec : List String)
    (acc : List (List String)) :
    csv_parse (enc_field f ++ '\r' :: '\n' :: cs) .fieldStart [] cur_rec acc
      = csv_parse cs .recStart [] []
          (acc ++ [cur_rec ++ [String.mk f]]) := by
  by_cases hq : needs_quote f = true
  · rw [enc_quoted_shape f _ hq, step_fs_quote,
        parse_quoted_run ('\r' :: '\n' :: cs) cur_rec acc f [], step_qe_cr,
        step_cr_lf]
    simp
  · have hall := needs_quote_false_mem f (bool_not_true_eq_false hq)
    rw [show enc_field f = f from by unfold enc_field; rw [if_neg hq]]
    cases f with
    | nil => rw [List.nil_append, step_fs_cr, step_cr_lf]
    | cons c f2 =>
      obtain ⟨h1, h2, h3, h4⟩ := hall c (by simp)
      rw [List.cons_append, step_fs_plain c _ _ _ _ h1 h2 h3 h4,
          parse_unquoted_run ('\r' :: '\n' :: cs) cur_rec acc f2
            (fun x hx => hall x (by simp [hx])) [c], step_unq_cr, step_cr_lf]
      simp

theorem parse_first_field_comma (f cs : List Char) (acc : List (List String))
    (cur0 : List Char) (rec0 : List String) :
    csv_parse (enc_field f ++ ',' :: cs) .recStart cur0 rec0 acc
      = csv_parse cs .fieldStart [] [String.mk f] acc := by
  by_cases hq : needs_quote f = true
  · rw [enc_quoted_shape f _ hq, step_rs_quote,
        parse_quoted_run (',' :: cs) [] acc f [], step_qe_comma]
    simp
  · have hall := needs_quote_false_mem f (bool_not_true_eq_false hq)
    rw [show enc_field f = f from by unfold enc_field; rw [if_neg hq]]
    cases f with
    | nil => rw [List.nil_append, step_rs_comma]
    | cons c f2 =>
      obtain ⟨h1, h2, h3, h4⟩ := hall c (by simp)
      rw [List.cons_append, step_rs_plain c _ _ _ _ h1 h2 h3 h4,
          parse_unquoted_run (',' :: cs) [] acc f2
            (fun x hx => hall x (by simp [hx])) [c], step_unq_comma]
      simp


theorem parse_fields_from_fieldStart (fs : List (List Char)) :
    ∀ (f0 : List Char) (cs : List Char) (cur_rec : List String)
      (acc : List (List String)),
      csv_parse (join_fields ((f0 :: fs).map enc_field) ++ '\r' :: '\n' :: cs)
          .fieldStart [] cur_rec acc
        = csv_parse cs .recStart [] []
            (acc ++ [cur_rec ++ (f0 :: fs).map String.mk]) := by
  induction fs with
  | nil =>
    intro f0 cs cur_rec acc
    simp only [List.map_cons, List.map_nil, join_fields]
    rw [parse_field_crlf]
  | cons f1 fs2 ih =>
    intro f0 cs cur_rec acc
    simp only [List.map_cons, join_fields]
    simp only [List.append_assoc, List.cons_append]
    rw [parse_field_comma, ← List.map_cons]
    rw [ih f1 cs (cur_rec ++ [String.mk f0]) acc]
    simp

theorem parse_record_line (f0 f1 : List Char) (rest : List (List Char))
    (cs cur0 : List Char) (rec0 : List String) (acc : List (List String)) :
    csv_parse (line_of (f0 :: f1 :: rest) ++ cs) .recStart cur0 rec0 acc
      = csv_parse cs .recStart [] []
          (acc ++ [(f0 :: f1 :: rest).map String.mk]) := by
  unfold line_of
  simp only [List.map_cons, join_fields]
  simp only [List.append_assoc, List.cons_append, List.nil_append]
  rw [parse_first_field_comma, ← List.map_cons]
  rw [parse_fields_from_fieldStart rest f1 cs [String.mk f0] acc]
  simp

/-- Concatenation of char lists. -/
def char_concat (l : List (List Char)) : List Char :=
  l.foldr (fun a b => a ++ b) []

theorem parse_all_lines (recsF : List (List (List Char)))
    (hne : ∀ r ∈ recsF, ∃ f0 f1 rest, r = f0 :: f1 :: rest) :
    ∀ acc, csv_parse (char_concat (recsF.map line_of)) .recStart [] [] acc
      = acc ++ recsF.map (fun r => r.map String.mk) := by
  induction recsF with
  | nil =>
    intro acc
    simp [char_concat, csv_parse]
  | cons r t ih =>
    intro acc
    obtain ⟨f0, f1, rest, hr⟩ := hne r (by simp)
    subst hr
    simp only [List.map_cons, char_concat, List.foldr_cons]
    rw [show List.foldr (fun a b => a ++ b) [] (t.map line_of)
        = char_concat (t.map line_of) from rfl]
    rw [parse_record_line f0 f1 rest (char_concat (t.map line_of)) [] [] acc]
    rw [ih (fun x hx => hne x (by simp [hx])) (acc ++ [(f0 :: f1 :: rest).map String.mk])]
    simp

theorem str_concat_data (l : List String) :
    (str_concat l).data = char_concat (l.map String.data) := by
  induction l with
  | nil => rfl
  | cons s t ih =>
    show (s ++ str_concat t).data = _
    rw [String.data_append, ih]
    rfl

theorem write_project_data (rows : List Dict) :
    (write_project_string rows).data
      = char_concat (((PROJECT_HEADERS.map String.data)
          :: rows.map row_fields).map line_of) := by
  unfold write_project_string write_chunks
  rw [str_concat_data]
  simp only [List.map_cons, List.map_map]
  rfl

theorem csv_records_write (rows : List Dict) :
    csv_records (write_project_string rows)
      = PROJECT_HEADERS
          :: rows.map (fun r => PROJECT_HEADERS.map (fun h => dgetD r h "")) := by
  unfold csv_records
  rw [write_project_data]
  rw [parse_all_lines _ ?hne []]
  case hne =>
    intro r hr
    rcases List.mem_cons.mp hr with h | h
    · subst h
      exact ⟨_, _, _, rfl⟩
    · rcases List.mem_map.mp h with ⟨x, _, hx⟩
      subst hx
      exact ⟨_, _, _, rfl⟩
  simp only [List.nil_append, List.map_cons, List.map_map]
  rfl

theorem zip_dict_map (hs : List String) (f : String → String) :
    zip_dict hs (hs.map f) = hs.map (fun h => (h, f h)) := by
  induction hs with
  | nil => rfl
  | cons h t ih => simp [zip_dict, ih]

theorem load_row_of_written (r : Dict) :
    PROJECT_HEADERS.map (fun h => (h, dgetD (zip_dict PROJECT_HEADERS
      (PROJECT_HEADERS.map (fun h2 => dgetD r h2 ""))) h "")) = store_row r := by
  unfold store_row
  apply List.map_congr_left
  intro h hh
  rw [zip_dict_map]
  simp [dgetD, dget?_map_keys, hh]

theorem load_write (rows : List Dict) :
    load_rows_from_string (write_project_string rows) = rows.map store_row := by
  unfold load_rows_from_string
  rw [csv_records_write]
  simp only [load_from_records]
  rw [List.filter_eq_self.mpr ?keep]
  case keep =>
    intro r hr
    rcases List.mem_map.mp hr with ⟨x, _, hx⟩
    subst hx
    simp [PROJECT_HEADERS]
  rw [List.map_map]
  apply List.map_congr_left
  intro r _
  exact load_row_of_written r

set_option maxRecDepth 100000 in
/-- C7: the byte buffer `get_project_csv_bytes` returns for a table written
by `_write_project` parses back — through the store's own reading
operation — to exactly the written rows (projected to the schema headers,
the identity on every row a load produced, including fields holding
embedded commas, quotes or newlines), with the header record first and in
the fixed header order; for a project never written to disk the buffer is
header-only and parses back to no rows. -/
theorem export_bytes_round_trip (rows : List Dict) :
    load_rows_from_string (get_project_csv_bytes
        (some (write_project_string rows))) = rows.map store_row
    ∧ (csv_records (get_project_csv_bytes
        (some (write_project_string rows)))).head? = some PROJECT_HEADERS
    ∧ load_rows_from_string (get_project_csv_bytes none) = []
    ∧ ((∀ r ∈ rows, store_row r = r) →
        load_rows_from_string (get_project_csv_bytes
          (some (write_project_string rows))) = rows) := by
  refine ⟨load_write rows, ?_, ?_, ?_⟩
  · show (csv_records (write_project_string rows)).head? = _
    rw [csv_records_write]
    rfl
  · show load_rows_from_string (write_project_string []) = []
    rw [load_write]
    rfl
  · intro hid
    rw [show get_project_csv_bytes (some (write_project_string rows))
        = write_project_string rows from rfl, load_write]
    have h2 : rows.map store_row = rows.map (fun r => r) :=
      List.map_congr_left (fun r hr => hid r hr)
    simpa using h2

/-- The C7 witness table: one stored row whose client field embeds a comma,
a quote and a CRLF newline. -/
def c7_rows : List Dict :=
  [store_row [("client", "a,\"b\"\r\nc"), ("task_number", "1")]]

set_option maxRecDepth 1000000 in
/-- C7 (witness): the round trip at a concrete one-row table whose client
field holds an embedded comma, quote and newline. -/
theorem export_bytes_round_trip_witness :
    (∀ r ∈ c7_rows, store_row r = r)
    ∧ load_rows_from_string (get_project_csv_bytes
        (some (write_project_string c7_rows))) = c7_rows :=
  ⟨by decide, (export_bytes_round_trip c7_rows).2.2.2 (by decide)⟩


/- ── C2: key uniqueness across upsert sequences ──────────────────── -/

/-- An `upsert_run` call as the documented caller interface shapes it: the
metadata mapping binds neither key field, and both mappings are genuine
dicts (no duplicate keys). -/
def good_call (c : Dict × Dict) : Prop :=
  dcontains c.1 "task_number" = false
  ∧ dcontains c.1 "attempt_number" = false
  ∧ (c.1.map Prod.fst).Nodup
  ∧ (c.2.map Prod.fst).Nodup

instance (c : Dict × Dict) : Decidable (good_call c) := by
  unfold good_call
  infer_instance

/-- The last call of the sequence whose key is `p`, if any. -/
def last_call_with (calls : List (Dict × Dict)) (p : String × String) :
    Option (Dict × Dict) :=
  (calls.filter (fun c => decide (call_key c = p))).getLast?

theorem store_row_idem (r : Dict) : store_row (store_row r) = store_row r := by
  unfold store_row
  apply List.map_congr_left
  intro h hh
  rw [show dgetD (PROJECT_HEADERS.map (fun h2 => (h2, dgetD r h2 ""))) h ""
      = dgetD (store_row r) h "" from rfl]
  rw [dgetD_store_row r h hh]

theorem dcontains_false_not_mem (d : Dict) (k : String)
    (h : dcontains d k = false) : k ∉ d.map Prod.fst := by
  induction d with
  | nil => simp
  | cons p t ih =>
    simp only [dcontains, Bool.or_eq_false_iff, decide_eq_false_iff_not] at h
    simp only [List.map_cons, List.mem_cons]
    push_neg
    exact ⟨fun he => h.1 he.symm, ih h.2⟩

theorem row_matches_iff (ts rs : String) (row : Dict) :
    row_matches ts rs row = true ↔ row_key row = (ts, rs) := by
  simp [row_matches, row_key, Prod.ext_iff]

theorem update_first_match_eq_none (meta run_data : Dict) (ts rs : String)
    (rows : List Dict) :
    update_first_match meta run_data ts rs rows = none
      ↔ ∀ row ∈ rows, row_matches ts rs row = false := by
  induction rows with
  | nil => simp [update_first_match]
  | cons row t2 ih =>
    rw [update_first_match_cons]
    by_cases hm : row_matches ts rs row = true
    · simp [hm]
    · have hm2 := bool_not_true_eq_false hm
      simp [hm2, ih]

theorem update_first_match_eq_some (meta run_data : Dict) (ts rs : String) :
    ∀ (rows rows' : List Dict),
      update_first_match meta run_data ts rs rows = some rows' →
      ∃ pre row post, rows = pre ++ row :: post
        ∧ rows' = pre ++ update_matched_row meta run_data row :: post
        ∧ row_matches ts rs row = true
        ∧ ∀ x ∈ pre, row_matches ts rs x = false := by
  intro rows
  induction rows with
  | nil => intro rows' h; simp [update_first_match] at h
  | cons row t2 ih =>
    intro rows' h
    rw [update_first_match_cons] at h
    by_cases hm : row_matches ts rs row = true
    · rw [if_pos hm] at h
      refine ⟨[], row, t2, rfl, ?_, hm, by simp⟩
      simpa using (Option.some.inj h).symm
    · rw [if_neg hm] at h
      cases hrec : update_first_match meta run_data ts rs t2 with
      | none => rw [hrec] at h; simp at h
      | some r2 =>
        rw [hrec] at h
        simp only [Option.map_some', Option.some.injEq] at h
        obtain ⟨pre, rowm, post, h1, h2, h3, h4⟩ := ih r2 hrec
        refine ⟨row :: pre, rowm, post, by simp [h1], ?_, h3, ?_⟩
        · rw [← h, h2]
          rfl
        · intro x hx
          rcases List.mem_cons.mp hx with hx1 | hx1
          · exact hx1 ▸ bool_not_true_eq_false hm
          · exact h4 x hx1

theorem last_call_with_append_one (calls : List (Dict × Dict))
    (c : Dict × Dict) (p : String × String) :
    last_call_with (calls ++ [c]) p
      = if call_key c = p then some c else last_call_with calls p := by
  unfold last_call_with
  rw [List.filter_append]
  by_cases hk : call_key c = p
  · simp [hk]
  · simp [hk]

theorem dgetD_update_matched_no_meta (meta run_data row : Dict) (k : String)
    (hmem : k ∈ PROJECT_HEADERS) (hm : dcontains meta k = false)
    (hval : dgetD row k "" = dgetD run_data k "") :
    dgetD (update_matched_row meta run_data row) k "" = dgetD row k "" := by
  rw [dgetD, update_matched_row_get, if_pos hmem]
  unfold merged_value
  rw [if_neg (by rw [hm]; simp)]
  by_cases hcr : dcontains run_data k = true
  · rw [if_pos hcr]
    simp [hval]
  · rw [if_neg hcr]
    rfl

theorem row_key_update_matched (meta run_data row : Dict)
    (hm1 : dcontains meta "task_number" = false)
    (hm2 : dcontains meta "attempt_number" = false)
    (hkey : row_key row
      = (dgetD run_data "task_number" "", dgetD run_data "attempt_number" "")) :
    row_key (update_matched_row meta run_data row) = row_key row := by
  have h1 : dgetD row "task_number" "" = dgetD run_data "task_number" "" :=
    congrArg Prod.fst hkey
  have h2 : dgetD row "attempt_number" "" = dgetD run_data "attempt_number" "" :=
    congrArg Prod.snd hkey
  unfold row_key
  rw [dgetD_update_matched_no_meta meta run_data row "task_number"
        (by simp [PROJECT_HEADERS]) hm1 h1,
      dgetD_update_matched_no_meta meta run_data row "attempt_number"
        (by simp [PROJECT_HEADERS]) hm2 h2]

theorem updated_field_of_run (meta run_data row : Dict) (k v : String)
    (hmem : k ∈ PROJECT_HEADERS) (hv : dget? run_data k = some v)
    (hne : v ≠ "") :
    dgetD (update_matched_row meta run_data row) k "" = v := by
  rw [dgetD, update_matched_row_get, if_pos hmem]
  unfold merged_value
  have ht : truthy? (dget? run_data k) = true := by
    rw [hv]
    simp [truthy?, hne]
  rw [if_neg (by rw [ht]; simp)]
  have hc : dcontains run_data k = true := by
    rw [dcontains_eq_isSome, hv]
    rfl
  rw [if_pos hc]
  simp [dgetD, hv]

theorem dget?_new_row (code : String) (meta run_data : Dict) (k : String)
    (hnr : (run_data.map Prod.fst).Nodup) :
    dget? (new_row code meta run_data) k
      = (dget? run_data k).or ((last_val meta k).or
          (dget? (dset (PROJECT_HEADERS.map (fun h => (h, "")))
            "project_code" code) k)) := by
  unfold new_row
  rw [dget?_upd, dget?_upd, last_val_of_nodup run_data k hnr]

theorem new_row_field_of_run (code : String) (meta run_data : Dict)
    (k v : String) (hnr : (run_data.map Prod.fst).Nodup)
    (hv : dget? run_data k = some v) :
    dgetD (new_row code meta run_data) k "" = v := by
  rw [dgetD, dget?_new_row code meta run_data k hnr, hv]
  rfl

theorem new_row_field_no_meta (code : String) (meta run_data : Dict)
    (k : String) (hm : dcontains meta k = false) (hk1 : k ≠ "project_code")
    (hmem : k ∈ PROJECT_HEADERS)
    (hnr : (run_data.map Prod.fst).Nodup) :
    dgetD (new_row code meta run_data) k "" = dgetD run_data k "" := by
  rw [dgetD, dget?_new_row code meta run_data k hnr]
  cases hr : dget? run_data k with
  | some v => simp [Option.or, dgetD, hr]
  | none =>
    rw [last_val_eq_none meta k (dcontains_false_not_mem _ _ hm)]
    rw [dget?_set_ne _ _ _ _ hk1]
    rw [show (fun h => (h, "")) = (fun h => (h, (fun _ : String => "") h))
        from rfl, dget?_map_keys]
    simp [Option.or, hmem, dgetD, hr]

theorem new_row_key (code : String) (meta run_data : Dict)
    (hm1 : dcontains meta "task_number" = false)
    (hm2 : dcontains meta "attempt_number" = false)
    (hnr : (run_data.map Prod.fst).Nodup) :
    row_key (new_row code meta run_data)
      = (dgetD run_data "task_number" "", dgetD run_data "attempt_number" "") := by
  unfold row_key
  rw [new_row_field_no_meta code meta run_data "task_number" hm1
        (by decide) (by simp [PROJECT_HEADERS]) hnr,
      new_row_field_no_meta code meta run_data "attempt_number" hm2
        (by decide) (by simp [PROJECT_HEADERS]) hnr]

theorem upsert_step_eq (code : String) (t : List Dict) (c : Dict × Dict) :
    upsert_step code t c
      = ((append_or_update_project_run code c.1 c.2 t).1).map store_row := by
  unfold upsert_step
  rw [load_write]

theorem append_result_of_some (code : String) (meta run_data : Dict)
    (t t' : List Dict)
    (h : update_first_match meta run_data (dgetD run_data "task_number" "")
      (dgetD run_data "attempt_number" "") t = some t') :
    (append_or_update_project_run code meta run_data t).1 = t' := by
  simp [append_or_update_project_run, h]

theorem append_result_of_none (code : String) (meta run_data : Dict)
    (t : List Dict)
    (h : update_first_match meta run_data (dgetD run_data "task_number" "")
      (dgetD run_data "attempt_number" "") t = none) :
    (append_or_update_project_run code meta run_data t).1
      = t ++ [new_row code meta run_data] := by
  simp [append_or_update_project_run, h]


theorem map_store_row_of_norm (l : List Dict) (h : ∀ r ∈ l, store_row r = r) :
    l.map store_row = l := by
  have h2 : l.map store_row = l.map (fun r => r) := List.map_congr_left h
  simpa using h2

/-- The induction invariant: after the calls `done`, the table `t` has
pairwise-distinct keys, its key set is exactly the key set of `done`, and
each row carries every non-empty run value of the last call with its key. -/
def table_inv (done : List (Dict × Dict)) (t : List Dict) : Prop :=
  ((t.map row_key).Nodup)
  ∧ (∀ p, p ∈ t.map row_key ↔ p ∈ done.map call_key)
  ∧ (∀ r ∈ t, ∀ c2, last_call_with done (row_key r) = some c2 →
      ∀ h ∈ PROJECT_HEADERS, ∀ v, dget? c2.2 h = some v → v ≠ "" →
        dgetD r h "" = v)

theorem upsert_step_inv (code : String) (done : List (Dict × Dict))
    (t : List Dict) (c : Dict × Dict) (hc : good_call c)
    (hinv : table_inv done t) (hnorm : ∀ r ∈ t, r = store_row r) :
    table_inv (done ++ [c]) (upsert_step code t c)
    ∧ ∀ r ∈ upsert_step code t c, r = store_row r := by
  obtain ⟨hc1, hc2, hc3, hc4⟩ := hc
  obtain ⟨hnd, hmem, hlast⟩ := hinv
  have hkey_c : call_key c
      = (dgetD c.2 "task_number" "", dgetD c.2 "attempt_number" "") := rfl
  rw [upsert_step_eq]
  cases hu : update_first_match c.1 c.2 (dgetD c.2 "task_number" "")
      (dgetD c.2 "attempt_number" "") t with
  | some t2 =>
    rw [append_result_of_some code c.1 c.2 t t2 hu]
    obtain ⟨pre, row, post, hsplit, ht2, hmatch, hpre⟩ :=
      update_first_match_eq_some c.1 c.2 _ _ t t2 hu
    have hrowkey : row_key row = call_key c :=
      (row_matches_iff _ _ row).mp hmatch
    subst ht2
    subst hsplit
    have hpre_norm : ∀ r ∈ pre, store_row r = r :=
      fun r hr => (hnorm r (by simp [hr])).symm
    have hpost_norm : ∀ r ∈ post, store_row r = r :=
      fun r hr => (hnorm r (by simp [hr])).symm
    have hT2 : (pre ++ update_matched_row c.1 c.2 row :: post).map store_row
        = pre ++ store_row (update_matched_row c.1 c.2 row) :: post := by
      rw [List.map_append, List.map_cons, map_store_row_of_norm pre hpre_norm,
          map_store_row_of_norm post hpost_norm]
    rw [hT2]
    have hukey : row_key (store_row (update_matched_row c.1 c.2 row))
        = row_key row := by
      rw [row_key_store_row]
      exact row_key_update_matched c.1 c.2 row hc1 hc2 (by rw [hrowkey, hkey_c])
    have hkeys : (pre ++ store_row (update_matched_row c.1 c.2 row) :: post).map
        row_key = (pre ++ row :: post).map row_key := by
      simp [hukey]
    have hq_in : call_key c ∈ (pre ++ row :: post).map row_key :=
      hrowkey ▸ List.mem_map_of_mem row_key (by simp)
    have hq_done : call_key c ∈ done.map call_key := (hmem _).mp hq_in
    have hnd2 := hnd
    rw [List.map_append, List.map_cons, List.nodup_append] at hnd2
    refine ⟨⟨?_, ?_, ?_⟩, ?_⟩
    · rw [hkeys]
      exact hnd
    · intro p
      rw [hkeys, hmem p, List.map_append]
      constructor
      · intro h
        simp [h]
      · intro h
        rcases List.mem_append.mp h with h1 | h1
        · exact h1
        · have hp : p = call_key c := by simpa using h1
          exact hp ▸ hq_done
    · intro r hr c2 hl2 h hh v hv hvne
      rcases List.mem_append.mp hr with hr1 | hr2
      · have hrk : row_key r ≠ call_key c := by
          intro he
          have h1 : row_key r ∈ pre.map row_key :=
            List.mem_map_of_mem row_key hr1
          have h2 : row_key r ∉ row_key row :: post.map row_key :=
            hnd2.2.2 h1
          exact h2 (by rw [he, ← hrowkey]; exact List.mem_cons_self _ _)
        rw [last_call_with_append_one, if_neg (fun he => hrk he.symm)] at hl2
        exact hlast r (by simp [hr1]) c2 hl2 h hh v hv hvne
      · rcases List.mem_cons.mp hr2 with hr3 | hr4
        · subst hr3
          rw [last_call_with_append_one,
              if_pos (hukey.trans hrowkey).symm] at hl2
          have hc2c : c2 = c := (Option.some.inj hl2).symm
          rw [hc2c] at hv
          rw [dgetD_store_row _ h hh]
          exact updated_field_of_run c.1 c.2 row h v hh hv hvne
        · have hrk : row_key r ≠ call_key c := by
            intro he
            have h1 : row_key r ∈ post.map row_key :=
              List.mem_map_of_mem row_key hr4
            have h2 : (row_key row :: post.map row_key).Nodup := hnd2.2.1
            rw [List.nodup_cons] at h2
            exact h2.1 (by rw [hrowkey, ← he]; exact h1)
          rw [last_call_with_append_one, if_neg (fun he => hrk he.symm)] at hl2
          exact hlast r (by simp [hr4]) c2 hl2 h hh v hv hvne
    · intro r hr
      rcases List.mem_append.mp hr with h1 | h2
      · exact (hpre_norm r h1).symm
      · rcases List.mem_cons.mp h2 with h3 | h4
        · rw [h3, store_row_idem]
        · exact (hpost_norm r h4).symm
  | none =>
    rw [append_result_of_none code c.1 c.2 t hu]
    have hnom := (update_first_match_eq_none c.1 c.2 _ _ t).mp hu
    have hqnotin : call_key c ∉ t.map row_key := by
      intro hin
      rcases List.mem_map.mp hin with ⟨r, hr, hkr⟩
      have hmt : row_matches (dgetD c.2 "task_number" "")
          (dgetD c.2 "attempt_number" "") r = true :=
        (row_matches_iff _ _ r).mpr (hkr.trans hkey_c)
      rw [hnom r hr] at hmt
      exact Bool.false_ne_true hmt
    have hT2 : (t ++ [new_row code c.1 c.2]).map store_row
        = t ++ [store_row (new_row code c.1 c.2)] := by
      rw [List.map_append,
          map_store_row_of_norm t (fun r hr => (hnorm r hr).symm)]
      rfl
    rw [hT2]
    have hnewkey : row_key (store_row (new_row code c.1 c.2)) = call_key c := by
      rw [row_key_store_row, new_row_key code c.1 c.2 hc1 hc2 hc4, hkey_c]
    refine ⟨⟨?_, ?_, ?_⟩, ?_⟩
    · rw [List.map_append, List.nodup_append]
      refine ⟨hnd, by simp, ?_⟩
      intro a ha
      simp only [List.map_cons, List.map_nil, List.mem_singleton, hnewkey]
      intro he
      exact hqnotin (he ▸ ha)
    · intro p
      rw [List.map_append, List.map_append]
      simp only [List.map_cons, List.map_nil, List.mem_append,
        List.mem_singleton, hnewkey]
      constructor
      · intro h
        rcases h with h1 | h1
        · exact Or.inl ((hmem p).mp h1)
        · exact Or.inr h1
      · intro h
        rcases h with h1 | h1
        · exact Or.inl ((hmem p).mpr h1)
        · exact Or.inr h1
    · intro r hr c2 hl2 h hh v hv hvne
      rcases List.mem_append.mp hr with hr1 | hr2
      · have hrk : row_key r ≠ call_key c := by
          intro he
          exact hqnotin (he ▸ List.mem_map_of_mem row_key hr1)
        rw [last_call_with_append_one, if_neg (fun he => hrk he.symm)] at hl2
        exact hlast r hr1 c2 hl2 h hh v hv hvne
      · have hr3 : r = store_row (new_row code c.1 c.2) := by simpa using hr2
        subst hr3
        rw [last_call_with_append_one, if_pos hnewkey.symm] at hl2
        have hc2c : c2 = c := (Option.some.inj hl2).symm
        rw [hc2c] at hv
        rw [dgetD_store_row _ h hh]
        exact new_row_field_of_run code c.1 c.2 h v hc4 hv
    · intro r hr
      rcases List.mem_append.mp hr with h1 | h2
      · exact hnorm r h1
      · have hr3 : r = store_row (new_row code c.1 c.2) := by simpa using h2
        rw [hr3, store_row_idem]

theorem upsert_fold_inv (code : String) :
    ∀ (calls done : List (Dict × Dict)) (t : List Dict),
      (∀ c ∈ calls, good_call c) → table_inv done t →
      (∀ r ∈ t, r = store_row r) →
      table_inv (done ++ calls) (calls.foldl (upsert_step code) t) := by
  intro calls
  induction calls with
  | nil =>
    intro done t _ hinv _
    simpa using hinv
  | cons c cs ih =>
    intro done t hgood hinv hnorm
    rw [List.foldl_cons]
    have hstep := upsert_step_inv code done t c (hgood c (by simp)) hinv hnorm
    have h2 := ih (done ++ [c]) (upsert_step code t c)
      (fun x hx => hgood x (by simp [hx])) hstep.1 hstep.2
    simpa [List.append_assoc] using h2

/-- C2 (amended): for every sequence of `upsert_run` calls whose metadata
mappings bind neither `task_number` nor `attempt_number` (the documented
metadata keys) and whose mappings are genuine dicts, applied to an
initially empty table: no two rows ever share a `(task_number,
attempt_number)` pair, the table holds exactly one row per distinct pair
seen (its key set equals the set of call keys), and each row carries, for
every schema header, the non-empty value the last call with its key
supplied in its run mapping.  (A field the last call's run mapping left
empty or unbound may instead hold that call's metadata value, which is
why only the non-empty run values are asserted.) -/
theorem upsert_seq_key_uniqueness (code : String) (calls : List (Dict × Dict))
    (hgood : ∀ c ∈ calls, good_call c) :
    ((upsert_run_seq code calls).map row_key).Nodup
    ∧ (∀ p, p ∈ (upsert_run_seq code calls).map row_key
        ↔ p ∈ calls.map call_key)
    ∧ (∀ r ∈ upsert_run_seq code calls, ∀ c2,
        last_call_with calls (row_key r) = some c2 →
        ∀ h ∈ PROJECT_HEADERS, ∀ v, dget? c2.2 h = some v → v ≠ "" →
          dgetD r h "" = v) := by
  have hbase : table_inv [] [] := ⟨by simp, by simp, by simp⟩
  have h := upsert_fold_inv code calls [] [] hgood hbase (by simp)
  simpa [table_inv, upsert_run_seq] using h

/-- The three calls of the C2 counterexample: the key fields reach the
matched row through the metadata mapping. -/
def c2_calls : List (Dict × Dict) :=
  [([], [("task_number", "5"), ("attempt_number", "1")]),
   ([], [("attempt_number", "1")]),
   ([("task_number", "5")], [("attempt_number", "1")])]

set_option maxRecDepth 1000000 in
/-- C2 (counterexample): starting from an empty table, the three calls of
`c2_calls` leave two rows both keyed `(5, 1)`: a metadata mapping that
binds `task_number` rewrites a matched row's key onto the key of another
existing row, so an operation can produce two rows sharing the pair, and
the table no longer has one row per distinct pair seen. -/
theorem upsert_duplicate_key_cex :
    (upsert_run_seq "P1" c2_calls).map row_key = [("5", "1"), ("5", "1")]
    ∧ ¬ ((upsert_run_seq "P1" c2_calls).map row_key).Nodup := by
  exact ⟨by decide, by decide⟩

/-- The two calls of the C2 witness scenario. -/
def c2w_calls : List (Dict × Dict) :=
  [([("client", "A")], [("task_number", "1"), ("attempt_number", "1")]),
   ([("client", "B")],
    [("task_number", "1"), ("attempt_number", "1"), ("asset_id", "Y")])]

set_option maxRecDepth 1000000 in
/-- C2 (witness): the amended theorem applied to two well-shaped calls with
the same key: the resulting keys are pairwise distinct and `(1, 1)` is a
table key exactly because it is a call key. -/
theorem upsert_seq_key_uniqueness_witness :
    ((upsert_run_seq "P1" c2w_calls).map row_key).Nodup
    ∧ (("1", "1") ∈ (upsert_run_seq "P1" c2w_calls).map row_key
        ↔ ("1", "1") ∈ c2w_calls.map call_key) := by
  have h := upsert_seq_key_uniqueness "P1" c2w_calls (by decide)
  exact ⟨h.1, h.2.1 ("1", "1")⟩

end FieldLog
